import Mathlib

/-!
# Verification of the market-data acquisition core

Shallow embedding of `src/market_data_fetcher.py`:
* `robust_post` — the resilient requester (primary retry loop + single fallback attempt),
* `extractSymbols` — the symbol regex `\b[A-Z]{1,5}\b(?![\w\d])` as a character scanner,
* `findAll`/`matchPrice`/`matchSize`/`matchTs` — the three tick-field regexes,
* `validateTriple` — per-record validation (float/int/date parsing),
* `aggregate` — the pandas sort + groupby OHLC aggregation,
* `get_valid_symbols` — the process-lifetime symbol cache with local fallback,
* `get_market_data` — the end-to-end facade for one provider message.
-/

set_option maxRecDepth 8000

namespace MarketData

/-! ## Resilient requester (`robust_post`)

A network attempt either raises a `requests` exception (`exn`) or yields a
response with an HTTP status code.  The environment is given as the outcome
each successive attempt *would* produce: a list for the primary attempts
(length `max_retries`, i.e. 3 for every caller in the repository) and a single
outcome for the fallback endpoint. -/

structure Response where
  status : Nat
  body : String
deriving DecidableEq

inductive Outcome where
  | ok (r : Response)
  | exn
deriving DecidableEq

/-- Does an attempt outcome yield a response with `status_code == 200`?
(The source tests `response.status_code == 200`, nothing else.) -/
def isOk200 : Outcome → Bool
  | .ok r => r.status == 200
  | .exn => false

/-- The `for attempt in range(max_retries)` loop of `robust_post`: return the
first status-200 response, counting attempts actually made.  A non-200 status
just continues the loop; an exception continues (after a sleep) unless it was
the final attempt, where the `break` merely exits the already-finished loop. -/
def primaryLoop : List Outcome → Option Response × Nat
  | [] => (none, 0)
  | o :: rest =>
    match o with
    | .ok r =>
      if r.status = 200 then (some r, 1)
      else
        let p := primaryLoop rest
        (p.1, p.2 + 1)
    | .exn =>
      match rest with
      | [] => (none, 1)
      | _ :: _ =>
        let p := primaryLoop rest
        (p.1, p.2 + 1)

/-- `robust_post`: run the primary loop; if it produced no 200 response, make
exactly one attempt against the fallback endpoint.  Returns the response (or
`none`) together with the total number of network attempts made. -/
def robust_post (primary : List Outcome) (fallback : Outcome) : Option Response × Nat :=
  match primaryLoop primary with
  | (some r, n) => (some r, n)
  | (none, n) =>
    match fallback with
    | .ok r => if r.status = 200 then (some r, n + 1) else (none, n + 1)
    | .exn => (none, n + 1)

/-- Spec-side description of the requester result: the first response with
status exactly 200 among the attempted outcomes, in order. -/
def firstOk200 : List Outcome → Option Response
  | [] => none
  | .ok r :: rest => if r.status = 200 then some r else firstOk200 rest
  | .exn :: rest => firstOk200 rest

/-! ## Symbol extraction

`re.findall(r'\b[A-Z]{1,5}\b(?![\w\d])', message)` modelled as a left-to-right
character scanner.  A match is a maximal run of ASCII uppercase letters of
length 1..5 whose neighbouring characters (when present) are not word
characters; the trailing look-ahead `(?![\w\d])` is subsumed by the word
boundary `\b`.  Scanning resumes after each match, which for this pattern is
the same as per-character stepping.

Python's `\b`/`\w` on `str` patterns are Unicode-aware, so the word-character
predicate is a parameter `w : Char → Bool` of the scanner; the only facts the
embedding relies on are its values below code point 128, where Unicode word
characters are exactly `[A-Za-z0-9_]` (`isWordChar` below).  Theorems about
the program quantify over every `w` agreeing with `isWordChar` on ASCII, which
Python's `\w` does. -/

def isUpper (c : Char) : Bool := 'A' ≤ c && c ≤ 'Z'

/-- The ASCII word characters `[A-Za-z0-9_]`: the restriction of Python's
Unicode `\w` to code points below 128. -/
def isWordChar (c : Char) : Bool := c.isAlphanum || c == '_'

structure ScanState where
  prevWord : Bool
  run : List Char
  found : List String
deriving DecidableEq

/-- One scanner step for word-character predicate `w`.  `run` is the uppercase
run currently being read (it was started at a word boundary); when a
non-uppercase character ends the run, the run is emitted iff it has length ≤ 5
and the ending character is not a word character. -/
def scanStep (w : Char → Bool) (st : ScanState) (c : Char) : ScanState :=
  match st.run with
  | _ :: _ =>
    if isUpper c then { st with run := st.run ++ [c] }
    else
      { prevWord := w c
        run := []
        found :=
          if st.run.length ≤ 5 && !w c then st.found ++ [String.mk st.run]
          else st.found }
  | [] =>
    if isUpper c && !st.prevWord then { prevWord := true, run := [c], found := st.found }
    else { st with prevWord := w c }

/-- All matches of the ticker pattern, in order of occurrence (with
duplicates, as returned by `re.findall`), for word-character predicate `w`. -/
def extractSymbolsW (w : Char → Bool) (msg : String) : List String :=
  let st := msg.data.foldl (scanStep w) ⟨false, [], []⟩
  st.found ++ (if st.run ≠ [] ∧ st.run.length ≤ 5 then [String.mk st.run] else [])

/-- The scanner at the ASCII word-character predicate (the two concrete
messages fed to it in this development are pure ASCII, where this coincides
with the Unicode predicate). -/
def extractSymbols (msg : String) : List String := extractSymbolsW isWordChar msg

/-! ## Symbol cache (`get_valid_symbols`)

The network interaction of one `get_valid_symbols` call, seen from the cache:
either `robust_post` returned `None` (`fail`), or `response.json()` raised /
had no usable message (`badJson`), or a message string was obtained. -/

inductive NetResult where
  | fail
  | badJson
  | msg (s : String)
deriving DecidableEq

def LOCAL_FALLBACK_SYMBOLS : List String :=
  ["AAPL", "META", "GOOGL", "MSFT", "AMZN", "TSLA", "NVDA", "IBM", "ORCL"]

/-- Result of one `get_valid_symbols` call: the returned set, the cache
contents afterwards, and how many network queries (`robust_post` calls) the
call performed. -/
structure SymbolsCall where
  result : Finset String
  cache : Option (Finset String)
  queries : Nat

/-- `get_valid_symbols`, explicit in the global `CACHED_SYMBOLS` state.
A cached value is returned as-is with no network query; otherwise one query is
made and its outcome (or the local fallback list) is cached and returned. -/
def get_valid_symbols (env : NetResult) (cached : Option (Finset String)) : SymbolsCall :=
  match cached with
  | some s => ⟨s, some s, 0⟩
  | none =>
    match env with
    | .fail => ⟨LOCAL_FALLBACK_SYMBOLS.toFinset, some LOCAL_FALLBACK_SYMBOLS.toFinset, 1⟩
    | .badJson => ⟨LOCAL_FALLBACK_SYMBOLS.toFinset, some LOCAL_FALLBACK_SYMBOLS.toFinset, 1⟩
    | .msg m =>
      let found := extractSymbols m
      if found ≠ [] then ⟨found.toFinset, some found.toFinset, 1⟩
      else ⟨LOCAL_FALLBACK_SYMBOLS.toFinset, some LOCAL_FALLBACK_SYMBOLS.toFinset, 1⟩

/-! ## Tick extraction

The three field regexes of `get_market_data`:
* price: `\*\*Price:\*\*\s*\$([\d\.]+)`
* size: `\*\*Size:\*\*\s*(\d+)`
* timestamp: `\*\*Timestamp:\*\*\s*(\d{4}-\d{2}-\d{2} \d{2}:\d{2}:\d{2} UTC)`

Each matcher tries to match at the head of the character list and returns the
capture group together with the remaining characters after the match. -/

/-- Strip an exact literal from the head of the input, or fail. -/
def stripLit : List Char → List Char → Option (List Char)
  | [], l => some l
  | _ :: _, [] => none
  | p :: ps, c :: cs => if c = p then stripLit ps cs else none

/-- Require one exact character. -/
def expectChar (c : Char) : List Char → Option (List Char)
  | [] => none
  | d :: rest => if d = c then some rest else none

/-- Exactly `n` ASCII digits. -/
def takeDigits : Nat → List Char → Option (List Char × List Char)
  | 0, l => some ([], l)
  | _ + 1, [] => none
  | n + 1, c :: cs =>
    if c.isDigit then (takeDigits n cs).map (fun p => (c :: p.1, p.2)) else none

def isPriceChar (c : Char) : Bool := c.isDigit || c == '.'

/-- Match `\*\*Price:\*\*\s*\$([\d\.]+)` at the head of the input. -/
def matchPrice (l : List Char) : Option (List Char × List Char) := do
  let rest ← stripLit "**Price:**".data l
  let rest := rest.dropWhile Char.isWhitespace
  match rest with
  | '$' :: rest2 =>
    let cap := rest2.takeWhile isPriceChar
    if cap = [] then none else some (cap, rest2.dropWhile isPriceChar)
  | _ => none

/-- Match `\*\*Size:\*\*\s*(\d+)` at the head of the input. -/
def matchSize (l : List Char) : Option (List Char × List Char) := do
  let rest ← stripLit "**Size:**".data l
  let rest := rest.dropWhile Char.isWhitespace
  let cap := rest.takeWhile Char.isDigit
  if cap = [] then none else some (cap, rest.dropWhile Char.isDigit)

/-- Match `\*\*Timestamp:\*\*\s*(\d{4}-\d{2}-\d{2} \d{2}:\d{2}:\d{2} UTC)` at
the head of the input. -/
def matchTs (l : List Char) : Option (List Char × List Char) := do
  let rest ← stripLit "**Timestamp:**".data l
  let rest := rest.dropWhile Char.isWhitespace
  let (y, r) ← takeDigits 4 rest
  let r ← expectChar '-' r
  let (mo, r) ← takeDigits 2 r
  let r ← expectChar '-' r
  let (d, r) ← takeDigits 2 r
  let r ← expectChar ' ' r
  let (h, r) ← takeDigits 2 r
  let r ← expectChar ':' r
  let (mi, r) ← takeDigits 2 r
  let r ← expectChar ':' r
  let (s, r) ← takeDigits 2 r
  let r ← stripLit " UTC".data r
  return (y ++ '-' :: mo ++ '-' :: d ++ ' ' :: h ++ ':' :: mi ++ ':' :: s ++ " UTC".data, r)

/-- `re.findall` scanning: try the matcher at each position; on success emit
the capture and resume after the match (every successful match here consumes
at least its non-empty literal, so input length bounds the number of steps). -/
def findAllAux (m : List Char → Option (List Char × List Char)) :
    Nat → List Char → List (List Char)
  | 0, _ => []
  | _, [] => []
  | fuel + 1, c :: rest =>
    match m (c :: rest) with
    | some (cap, after) => cap :: findAllAux m fuel after
    | none => findAllAux m fuel rest

def findAll (m : List Char → Option (List Char × List Char)) (l : List Char) :
    List (List Char) :=
  findAllAux m l.length l

/-! ## Per-record validation

`float(price)`, `int(size)`, `pd.to_datetime(timestamp, utc=True)`; a
`ValueError` drops the record. -/

/-- Digits to a natural number (the captures are guaranteed non-empty digit
strings where this is used for `int`). -/
def digitsToNat (l : List Char) : Nat :=
  l.foldl (fun n c => 10 * n + (c.toNat - '0'.toNat)) 0

/-- `float(s)` for `s` drawn from `[\d\.]+`: defined iff the string has at
least one digit and at most one dot; the value is exact (decimals modelled as
rationals). -/
def parsePrice (cap : List Char) : Option ℚ :=
  if cap.count '.' ≤ 1 ∧ cap.any Char.isDigit then
    let intPart := cap.takeWhile (fun c => c ≠ '.')
    let fracPart := (cap.dropWhile (fun c => c ≠ '.')).drop 1
    some (mkRat (digitsToNat (intPart ++ fracPart)) (10 ^ fracPart.length))
  else none

/-- `int(s)` for `s` drawn from `\d+`: always succeeds. -/
def parseSize (cap : List Char) : Option Nat :=
  some (digitsToNat cap)

def isLeap (y : Nat) : Bool := (y % 4 == 0 && y % 100 != 0) || y % 400 == 0

def daysInMonth (y mo : Nat) : Nat :=
  if mo = 2 then (if isLeap y then 29 else 28)
  else if mo = 4 ∨ mo = 6 ∨ mo = 9 ∨ mo = 11 then 30
  else 31

/-- Lexicographic key of a timestamp; all fields are bounded below 100
(months, days, hours, minutes, seconds) so the encoding is injective and its
order is chronological order. -/
def tsKey (y mo d h mi s : Nat) : Nat :=
  ((((y * 100 + mo) * 100 + d) * 100 + h) * 100 + mi) * 100 + s

/-- `pandas.Timestamp` bounds (nanosecond precision), at whole-second
granularity: 1677-09-21 00:12:44 .. 2262-04-11 23:47:16. -/
def tsMinKey : Nat := tsKey 1677 9 21 0 12 44
def tsMaxKey : Nat := tsKey 2262 4 11 23 47 16

/-- `pd.to_datetime(cap, utc=True)` on a capture of shape
`dddd-dd-dd dd:dd:dd UTC`: succeeds iff the fields form a valid Gregorian
calendar date-time within the pandas timestamp range. -/
def parseTs (cap : List Char) : Option Nat :=
  let y := digitsToNat (cap.take 4)
  let mo := digitsToNat ((cap.drop 5).take 2)
  let d := digitsToNat ((cap.drop 8).take 2)
  let h := digitsToNat ((cap.drop 11).take 2)
  let mi := digitsToNat ((cap.drop 14).take 2)
  let s := digitsToNat ((cap.drop 17).take 2)
  let k := tsKey y mo d h mi s
  if 1 ≤ mo ∧ mo ≤ 12 ∧ 1 ≤ d ∧ d ≤ daysInMonth y mo ∧ h ≤ 23 ∧ mi ≤ 59 ∧ s ≤ 59
      ∧ tsMinKey ≤ k ∧ k ≤ tsMaxKey then
    some k
  else none

structure Tick where
  ts : Nat
  price : ℚ
  volume : Nat
deriving DecidableEq

/-- Validate one positional (price, size, timestamp) triple; `none` models the
`except ValueError: continue` path. -/
def validateTriple (tr : List Char × List Char × List Char) : Option Tick := do
  let ts ← parseTs tr.2.2
  let price ← parsePrice tr.1
  let vol ← parseSize tr.2.1
  return ⟨ts, price, vol⟩

/-! ## OHLC aggregation

`df.sort_values('timestamp')` followed by
`df.groupby('timestamp').agg(price: [first, max, min, last], volume: sum)`.
`groupby` enumerates the distinct keys in ascending order, each group listing
its rows in dataframe order.

Two modelling caveats.  The dataframe order within one timestamp group is not
determined by the source: pandas' default sort kind (quicksort) does not
guarantee stability, so the model fixes one sorted permutation (a stable
insertion sort) as a representative; only consequences that are insensitive to
the within-group tie order are claimed as theorems about the program (bar
count, bar-timestamp ordering and distinctness, high/low/volume structure,
open/close lying between low and high).  Volumes are summed in unbounded
naturals; pandas' int64 wraparound on overflow is not modelled. -/

structure Bar where
  ts : Nat
  open_ : ℚ
  high : ℚ
  low : ℚ
  close : ℚ
  volume : Nat
deriving DecidableEq

def listMaxQ : List ℚ → ℚ
  | [] => 0
  | [x] => x
  | x :: y :: xs => max x (listMaxQ (y :: xs))

def listMinQ : List ℚ → ℚ
  | [] => 0
  | [x] => x
  | x :: y :: xs => min x (listMinQ (y :: xs))

/-- The OHLC row for one timestamp group (rows in dataframe order). -/
def mkBar (t : Nat) (grp : List Tick) : Bar :=
  { ts := t
    open_ := ((grp.head?).map Tick.price).getD 0
    high := listMaxQ (grp.map Tick.price)
    low := listMinQ (grp.map Tick.price)
    close := ((grp.getLast?).map Tick.price).getD 0
    volume := (grp.map Tick.volume).sum }

/-- Sort by timestamp, then one OHLC bar per distinct timestamp in ascending
order. -/
def aggregate (ticks : List Tick) : List Bar :=
  let sorted := List.insertionSort (fun a b => a.ts ≤ b.ts) ticks
  ((sorted.map Tick.ts).dedup).map (fun t => mkBar t (sorted.filter (fun x => x.ts = t)))

/-! ## Service facade (`get_market_data`)

The call is parametrised by the provider interaction: `none` when
`robust_post` failed (or the body yielded no message), `some msg` for the
message text mined by the extractors. -/

def get_market_data (response : Option String) : Option (List Bar) :=
  match response with
  | none => none
  | some msg =>
    let chars := msg.data
    let prices := findAll matchPrice chars
    let sizes := findAll matchSize chars
    let timestamps := findAll matchTs chars
    if prices = [] ∨ sizes = [] ∨ timestamps = [] then none
    else
      let price_data := (prices.zip (sizes.zip timestamps)).filterMap validateTriple
      if price_data = [] then none
      else some (aggregate price_data)

/-! ## Theorems: resilient requester -/

/-- If none of the primary attempt outcomes yields a status-200 response, the
primary loop returns no response after exactly 3 attempts. -/
theorem primaryLoop_allFail (a b c : Outcome)
    (ha : isOk200 a = false) (hb : isOk200 b = false) (hc : isOk200 c = false) :
    primaryLoop [a, b, c] = (none, 3) := by
  rcases a with ra | _ <;> rcases b with rb | _ <;> rcases c with rc | _ <;>
    simp_all [isOk200, primaryLoop]

/-- C3: `robust_post` attempts the primary endpoint up to 3 times and, only
when all primary attempts fail, makes exactly one fallback attempt: with all
three primary attempts failing, a succeeding fallback gives success after
exactly 4 attempts and a failing fallback gives failure after exactly 4
attempts; a primary success at attempt 1, 2 or 3 returns at once after that
many attempts (so the fallback is never consulted then). -/
theorem robust_post_retry_fallback (a b c fb : Outcome) :
    (∀ r, isOk200 a = false → isOk200 b = false → isOk200 c = false →
      fb = .ok r → r.status = 200 → robust_post [a, b, c] fb = (some r, 4)) ∧
    (isOk200 a = false → isOk200 b = false → isOk200 c = false →
      isOk200 fb = false → robust_post [a, b, c] fb = (none, 4)) ∧
    (∀ r, a = .ok r → r.status = 200 → robust_post [a, b, c] fb = (some r, 1)) ∧
    (∀ r, isOk200 a = false → b = .ok r → r.status = 200 →
      robust_post [a, b, c] fb = (some r, 2)) ∧
    (∀ r, isOk200 a = false → isOk200 b = false → c = .ok r → r.status = 200 →
      robust_post [a, b, c] fb = (some r, 3)) := by
  refine ⟨?_, ?_, ?_, ?_, ?_⟩
  · rintro r ha hb hc rfl h200
    rw [robust_post, primaryLoop_allFail a b c ha hb hc]
    simp [h200]
  · intro ha hb hc hfb
    rw [robust_post, primaryLoop_allFail a b c ha hb hc]
    rcases fb with rf | _ <;> simp_all [isOk200]
  · rintro r rfl h200
    simp [robust_post, primaryLoop, h200]
  · rintro r ha rfl h200
    rcases a with ra | _ <;> simp_all [isOk200, robust_post, primaryLoop]
  · rintro r ha hb rfl h200
    rcases a with ra | _ <;> rcases b with rb | _ <;>
      simp_all [isOk200, robust_post, primaryLoop]

/-- Witness for C3: three transport failures then a 200 fallback succeed in 4
attempts; three 500 responses and a failing fallback fail in 4 attempts. -/
theorem robust_post_retry_fallback_witness :
    robust_post [.exn, .exn, .exn] (.ok ⟨200, "ok"⟩) = (some ⟨200, "ok"⟩, 4) ∧
    robust_post [.ok ⟨500, "e"⟩, .ok ⟨500, "e"⟩, .ok ⟨500, "e"⟩] .exn = (none, 4) :=
  ⟨(robust_post_retry_fallback .exn .exn .exn (.ok ⟨200, "ok"⟩)).1 ⟨200, "ok"⟩
      rfl rfl rfl rfl rfl,
   (robust_post_retry_fallback (.ok ⟨500, "e"⟩) (.ok ⟨500, "e"⟩) (.ok ⟨500, "e"⟩) .exn).2.1
      (by decide) (by decide) (by decide) rfl⟩

/-- C4 counterexample: 201 is a 2xx status, yet a run in which every attempt
returns status 201 ends in failure — the source accepts exactly
`status_code == 200`, not any 2xx status. -/
theorem robust_post_2xx_counterexample :
    (200 ≤ 201 ∧ 201 < 300) ∧
    robust_post [.ok ⟨201, "created"⟩, .ok ⟨201, "created"⟩, .ok ⟨201, "created"⟩]
      (.ok ⟨201, "created"⟩) = (none, 4) := by
  exact ⟨⟨by norm_num, by norm_num⟩, rfl⟩

/-- C4 amended: `robust_post` succeeds exactly when some attempt (the up-to-3
primary attempts, in order, then the single fallback attempt) returns a
response with status exactly 200, and it returns the first such response. -/
theorem robust_post_first200 (a b c fb : Outcome) :
    (robust_post [a, b, c] fb).1 = firstOk200 [a, b, c, fb] := by
  rcases a with ra | _ <;> rcases b with rb | _ <;> rcases c with rc | _ <;>
    rcases fb with rf | _ <;>
      simp only [robust_post, primaryLoop, firstOk200] <;>
      split_ifs <;> simp_all

/-! ## Theorems: symbol cache -/

/-- A call on an empty cache performs one query and caches exactly what it
returns. -/
theorem get_valid_symbols_fresh (e : NetResult) :
    (get_valid_symbols e none).queries = 1 ∧
    (get_valid_symbols e none).cache = some (get_valid_symbols e none).result := by
  cases e with
  | fail => exact ⟨rfl, rfl⟩
  | badJson => exact ⟨rfl, rfl⟩
  | msg m => by_cases h : extractSymbols m = [] <;> simp [get_valid_symbols, h]

/-- C5: starting from an empty cache, the first `get_valid_symbols` call
performs exactly one network query, the second call performs none and returns
the cached set; if the first query fails, both calls return the 9-symbol local
fallback set. -/
theorem get_valid_symbols_cache_behavior (e₁ e₂ : NetResult) :
    (get_valid_symbols e₁ none).queries = 1 ∧
    (get_valid_symbols e₂ (get_valid_symbols e₁ none).cache).queries = 0 ∧
    (get_valid_symbols e₂ (get_valid_symbols e₁ none).cache).result =
      (get_valid_symbols e₁ none).result ∧
    (e₁ = .fail →
      (get_valid_symbols e₁ none).result = LOCAL_FALLBACK_SYMBOLS.toFinset ∧
      (get_valid_symbols e₂ (get_valid_symbols e₁ none).cache).result =
        LOCAL_FALLBACK_SYMBOLS.toFinset) := by
  obtain ⟨hq, hcache⟩ := get_valid_symbols_fresh e₁
  refine ⟨hq, ?_, ?_, ?_⟩
  · rw [hcache]; rfl
  · rw [hcache]; rfl
  · rintro rfl
    have hres : (get_valid_symbols .fail none).result = LOCAL_FALLBACK_SYMBOLS.toFinset := rfl
    exact ⟨hres, by rw [hcache]; exact hres⟩

/-- Witness for C5: with a failing first query, the two consecutive calls use
1 and 0 network queries and both return the fallback set. -/
theorem get_valid_symbols_cache_behavior_witness :
    (get_valid_symbols .fail none).queries = 1 ∧
    (get_valid_symbols .fail (get_valid_symbols .fail none).cache).queries = 0 ∧
    (get_valid_symbols .fail none).result = LOCAL_FALLBACK_SYMBOLS.toFinset ∧
    (get_valid_symbols .fail (get_valid_symbols .fail none).cache).result =
      LOCAL_FALLBACK_SYMBOLS.toFinset :=
  ⟨(get_valid_symbols_cache_behavior .fail .fail).1,
   (get_valid_symbols_cache_behavior .fail .fail).2.1,
   ((get_valid_symbols_cache_behavior .fail .fail).2.2.2 rfl).1,
   ((get_valid_symbols_cache_behavior .fail .fail).2.2.2 rfl).2⟩

/-- C9: provided any previously cached set is non-empty, a `get_valid_symbols`
call returns a non-empty set and leaves only a non-empty set in the cache
(every fresh resolution caches either a non-empty match list or the 9-element
fallback). -/
theorem get_valid_symbols_nonempty (env : NetResult) (cached : Option (Finset String))
    (hc : ∀ s, cached = some s → s.Nonempty) :
    (get_valid_symbols env cached).result.Nonempty ∧
    ∀ s, (get_valid_symbols env cached).cache = some s → s.Nonempty := by
  have hfb : LOCAL_FALLBACK_SYMBOLS.toFinset.Nonempty := by decide
  cases cached with
  | some s =>
    exact ⟨hc s rfl, fun s' hs' => by
      simp only [get_valid_symbols, Option.some.injEq] at hs'
      exact hs' ▸ hc s rfl⟩
  | none =>
    cases env with
    | fail => exact ⟨hfb, fun s hs => by
        simp only [get_valid_symbols, Option.some.injEq] at hs; exact hs ▸ hfb⟩
    | badJson => exact ⟨hfb, fun s hs => by
        simp only [get_valid_symbols, Option.some.injEq] at hs; exact hs ▸ hfb⟩
    | msg m =>
      have hdef : get_valid_symbols (.msg m) none =
          (if extractSymbols m ≠ [] then
              (⟨(extractSymbols m).toFinset, some (extractSymbols m).toFinset, 1⟩ : SymbolsCall)
            else ⟨LOCAL_FALLBACK_SYMBOLS.toFinset, some LOCAL_FALLBACK_SYMBOLS.toFinset, 1⟩) :=
        rfl
      by_cases h : extractSymbols m = []
      · rw [hdef, if_neg (fun hc => hc h)]
        exact ⟨hfb, fun s hs => by
          simp only [Option.some.injEq] at hs; exact hs ▸ hfb⟩
      · have hne : (extractSymbols m).toFinset.Nonempty :=
          (List.toFinset_nonempty_iff _).mpr h
        rw [hdef, if_pos h]
        exact ⟨hne, fun s hs => by
          simp only [Option.some.injEq] at hs; exact hs ▸ hne⟩

/-- Witness for C9: a call on the empty cache after a failed query returns a
non-empty set and caches a non-empty set. -/
theorem get_valid_symbols_nonempty_witness :
    (get_valid_symbols .fail none).result.Nonempty ∧
    ∀ s, (get_valid_symbols .fail none).cache = some s → s.Nonempty :=
  get_valid_symbols_nonempty .fail none (fun _ h => Option.noConfusion h)

/-! ## Theorems: symbol extraction -/

/-- A well-formed ticker token: 1 to 5 consecutive ASCII uppercase letters. -/
def goodToken (t : String) : Prop :=
  t.data ≠ [] ∧ t.data.length ≤ 5 ∧ ∀ c ∈ t.data, isUpper c = true

/-- The scanner invariant: all emitted tokens are well-formed and the pending
run consists of uppercase letters, whatever the word-character predicate. -/
theorem scan_invariant (w : Char → Bool) (l : List Char) (st : ScanState)
    (hf : ∀ t ∈ st.found, goodToken t) (hr : ∀ c ∈ st.run, isUpper c = true) :
    (∀ t ∈ (l.foldl (scanStep w) st).found, goodToken t) ∧
    (∀ c ∈ (l.foldl (scanStep w) st).run, isUpper c = true) := by
  induction l generalizing st with
  | nil => exact ⟨hf, hr⟩
  | cons c rest ih =>
    rw [List.foldl_cons]
    apply ih
    · intro t ht
      rcases st with ⟨pw, run, found⟩
      cases run with
      | nil =>
        simp only [scanStep] at ht
        split_ifs at ht <;> exact hf t ht
      | cons r0 rs =>
        simp only [scanStep] at ht
        split_ifs at ht with h1 h2
        · exact hf t ht
        · simp only [List.mem_append, List.mem_singleton] at ht
          rcases ht with ht | rfl
          · exact hf t ht
          · rw [Bool.and_eq_true] at h2
            refine ⟨List.cons_ne_nil r0 rs, of_decide_eq_true h2.1, ?_⟩
            intro d hd
            exact hr d hd
        · exact hf t ht
    · intro d hd
      rcases st with ⟨pw, run, found⟩
      cases run with
      | nil =>
        simp only [scanStep] at hd
        split_ifs at hd with h1
        · simp only [List.mem_singleton] at hd
          subst hd
          rw [Bool.and_eq_true] at h1
          exact h1.1
        · simp at hd
      | cons r0 rs =>
        simp only [scanStep] at hd
        split_ifs at hd with h1
        · simp only [List.mem_append, List.mem_singleton] at hd
          rcases hd with hd | rfl
          · exact hr d hd
          · exact h1
        all_goals simp at hd

/-- An uppercase letter is an ASCII word character. -/
theorem isWordChar_of_isUpper (c : Char) (h : isUpper c = true) : isWordChar c = true := by
  simp only [isUpper, Bool.and_eq_true, decide_eq_true_eq] at h
  simp only [isWordChar, Char.isAlphanum, Char.isAlpha, Char.isUpper, Bool.or_eq_true,
    Bool.and_eq_true, decide_eq_true_eq]
  exact Or.inl (Or.inl (Or.inl ⟨h.1, h.2⟩))

/-- An uppercase letter has an ASCII code point. -/
theorem toNat_le_of_isUpper (c : Char) (h : isUpper c = true) : c.toNat ≤ 127 := by
  simp only [isUpper, Bool.and_eq_true, decide_eq_true_eq] at h
  have h2 : c.val ≤ 'Z'.val := h.2
  rw [UInt32.le_def, BitVec.le_def] at h2
  have hz : ('Z'.val.toBitVec.toNat) = 90 := by decide
  rw [hz] at h2
  show c.val.toBitVec.toNat ≤ 127
  omega

/-- Any word-character predicate that is right on ASCII holds on uppercase
letters. -/
theorem w_true_of_isUpper (w : Char → Bool)
    (hw : ∀ c : Char, c.toNat ≤ 127 → w c = isWordChar c) (c : Char)
    (h : isUpper c = true) : w c = true :=
  (hw c (toNat_le_of_isUpper c h)).trans (isWordChar_of_isUpper c h)

/-- Processing a non-word, non-uppercase character always leaves the scanner
at a word boundary with no pending run. -/
theorem scanStep_nonword (w : Char → Bool) (st : ScanState) (c : Char)
    (hc : w c = false) (hup : isUpper c = false) :
    (scanStep w st c).run = [] ∧ (scanStep w st c).prevWord = false := by
  rcases st with ⟨pw, run, found⟩
  cases run with
  | nil => simp [scanStep, hup, hc]
  | cons r rs => simp [scanStep, hup, hc]

/-- After any input whose last character (if any) is not a word character, the
scanner sits at a word boundary with no pending run. -/
theorem scan_after_boundary (w : Char → Bool)
    (hw : ∀ c : Char, c.toNat ≤ 127 → w c = isWordChar c) (pre : List Char)
    (hp : ∀ p, pre.getLast? = some p → w p = false) :
    (pre.foldl (scanStep w) ⟨false, [], []⟩).run = [] ∧
    (pre.foldl (scanStep w) ⟨false, [], []⟩).prevWord = false := by
  induction pre using List.reverseRecOn with
  | nil => exact ⟨rfl, rfl⟩
  | append_singleton xs x _ =>
    rw [List.foldl_append]
    have hx : w x = false := hp x (List.getLast?_concat xs)
    have hup : isUpper x = false := by
      cases hu : isUpper x
      · rfl
      · rw [w_true_of_isUpper w hw x hu] at hx
        cases hx
    exact scanStep_nonword w _ x hx hup

/-- A pending run absorbs any stretch of uppercase letters. -/
theorem scan_run_accum (w : Char → Bool) : ∀ (tok : List Char) (st : ScanState), st.run ≠ [] →
    (∀ c ∈ tok, isUpper c = true) →
    tok.foldl (scanStep w) st = ⟨st.prevWord, st.run ++ tok, st.found⟩
  | [], st, _, _ => by cases st; simp
  | c :: rest, st, h, hall => by
    rw [List.foldl_cons]
    have hstep : scanStep w st c = ⟨st.prevWord, st.run ++ [c], st.found⟩ := by
      rcases st with ⟨pw, run, found⟩
      cases run with
      | nil => exact absurd rfl h
      | cons r rs => simp [scanStep, hall c (List.mem_cons_self c rest)]
    rw [hstep, scan_run_accum w rest ⟨st.prevWord, st.run ++ [c], st.found⟩ (by simp)
      (fun d hd => hall d (List.mem_cons_of_mem c hd))]
    simp

/-- From a word boundary with no pending run, a non-empty stretch of uppercase
letters becomes the pending run. -/
theorem scan_run_start (w : Char → Bool) (tok : List Char) (st : ScanState)
    (hrun : st.run = []) (hpw : st.prevWord = false) (htok : tok ≠ [])
    (hall : ∀ c ∈ tok, isUpper c = true) :
    tok.foldl (scanStep w) st = ⟨true, tok, st.found⟩ := by
  cases tok with
  | nil => exact absurd rfl htok
  | cons c rest =>
    rw [List.foldl_cons]
    have hstep : scanStep w st c = ⟨true, [c], st.found⟩ := by
      rcases st with ⟨pw, run, found⟩
      cases hrun
      cases hpw
      simp [scanStep, hall c (List.mem_cons_self c rest)]
    rw [hstep, scan_run_accum w rest ⟨true, [c], st.found⟩ (by simp)
      (fun d hd => hall d (List.mem_cons_of_mem c hd))]
    simp

/-- Emitted tokens are never withdrawn by later scanning. -/
theorem scan_found_mono (w : Char → Bool) : ∀ (l : List Char) (st : ScanState) (t : String),
    t ∈ st.found → t ∈ (l.foldl (scanStep w) st).found
  | [], _, _, ht => ht
  | c :: rest, st, t, ht => by
    rw [List.foldl_cons]
    apply scan_found_mono w rest
    rcases st with ⟨pw, run, found⟩
    cases run with
    | nil =>
      simp only [scanStep]
      split_ifs <;> exact ht
    | cons r rs =>
      simp only [scanStep]
      split_ifs <;> first | exact ht | exact List.mem_append_left _ ht

/-- The scanner only consults the word-character predicate on the characters
of its input. -/
theorem scanStep_congr (w w' : Char → Bool) (st : ScanState) (c : Char) (h : w c = w' c) :
    scanStep w st c = scanStep w' st c := by
  rcases st with ⟨pw, run, found⟩
  cases run with
  | nil => simp [scanStep, h]
  | cons r rs => simp [scanStep, h]

theorem foldl_scanStep_congr (w w' : Char → Bool) : ∀ (l : List Char) (st : ScanState),
    (∀ c ∈ l, w c = w' c) → l.foldl (scanStep w) st = l.foldl (scanStep w') st
  | [], _, _ => rfl
  | c :: rest, st, h => by
    rw [List.foldl_cons, List.foldl_cons,
      scanStep_congr w w' st c (h c (List.mem_cons_self c rest)),
      foldl_scanStep_congr w w' rest _ (fun d hd => h d (List.mem_cons_of_mem c hd))]

/-- Two word-character predicates agreeing on the characters of a message give
the same extraction. -/
theorem extractSymbolsW_congr (w w' : Char → Bool) (msg : String)
    (h : ∀ c ∈ msg.data, w c = w' c) : extractSymbolsW w msg = extractSymbolsW w' msg := by
  unfold extractSymbolsW
  rw [foldl_scanStep_congr w w' msg.data _ h]

/-- Completeness of the scanner: any occurrence of 1 to 5 consecutive
uppercase letters delimited by word boundaries is extracted, for every
word-character predicate that is right on ASCII. -/
theorem extractSymbolsW_complete (w : Char → Bool)
    (hw : ∀ c : Char, c.toNat ≤ 127 → w c = isWordChar c) (pre tok post : List Char)
    (htok : tok ≠ []) (hlen : tok.length ≤ 5) (hall : ∀ c ∈ tok, isUpper c = true)
    (hpre : ∀ p, pre.getLast? = some p → w p = false)
    (hpost : ∀ q, post.head? = some q → w q = false) :
    String.mk tok ∈ extractSymbolsW w (String.mk (pre ++ tok ++ post)) := by
  obtain ⟨hrun, hpw⟩ := scan_after_boundary w hw pre hpre
  show String.mk tok ∈
    (let st := (pre ++ tok ++ post).foldl (scanStep w) ⟨false, [], []⟩
     st.found ++ (if st.run ≠ [] ∧ st.run.length ≤ 5 then [String.mk st.run] else []))
  rw [List.append_assoc, List.foldl_append,
    List.foldl_append, scan_run_start w tok _ hrun hpw htok hall]
  cases post with
  | nil =>
    refine List.mem_append_right _ ?_
    rw [if_pos ⟨htok, hlen⟩]
    exact List.mem_singleton.mpr rfl
  | cons q qs =>
    have hq : w q = false := hpost q rfl
    have hqup : isUpper q = false := by
      cases hu : isUpper q
      · rfl
      · rw [w_true_of_isUpper w hw q hu] at hq
        cases hq
    rw [List.foldl_cons]
    refine List.mem_append_left _ (scan_found_mono w qs _ _ ?_)
    obtain ⟨t0, ts, rfl⟩ := List.exists_cons_of_ne_nil htok
    simp only [scanStep, hqup, hq]
    simp only [Bool.false_eq_true, if_false, Bool.not_false, Bool.and_true]
    rw [if_pos (by simpa using hlen)]
    exact List.mem_append_right _ (List.mem_singleton.mpr rfl)

/-- C6: for every word-character predicate `w` agreeing with `[A-Za-z0-9_]` on
ASCII — Python's Unicode `\w` does — symbol extraction returns exactly the
word-boundary ticker tokens: every extracted symbol is a token of 1 to 5
consecutive uppercase letters, and conversely every occurrence of 1 to 5
consecutive uppercase letters neither preceded nor followed by a word
character is extracted; on "AAPL and MSFT are up, GOOGL is down" extraction
yields exactly the set AAPL, MSFT, GOOGL, and on "the market is open" it
yields the empty set. -/
theorem extractSymbols_spec (w : Char → Bool)
    (hw : ∀ c : Char, c.toNat ≤ 127 → w c = isWordChar c) :
    (∀ msg : String, ∀ t ∈ extractSymbolsW w msg, goodToken t) ∧
    (∀ pre tok post : List Char, tok ≠ [] → tok.length ≤ 5 →
      (∀ c ∈ tok, isUpper c = true) →
      (∀ p, pre.getLast? = some p → w p = false) →
      (∀ q, post.head? = some q → w q = false) →
      String.mk tok ∈ extractSymbolsW w (String.mk (pre ++ tok ++ post))) ∧
    (extractSymbolsW w "AAPL and MSFT are up, GOOGL is down").toFinset =
      {"AAPL", "MSFT", "GOOGL"} ∧
    (extractSymbolsW w "the market is open").toFinset = (∅ : Finset String) := by
  refine ⟨?_, extractSymbolsW_complete w hw, ?_, ?_⟩
  · intro msg t ht
    obtain ⟨hfound, hrun⟩ :=
      scan_invariant w msg.data ⟨false, [], []⟩ (by simp) (by simp)
    unfold extractSymbolsW at ht
    simp only [List.mem_append] at ht
    rcases ht with ht | ht
    · exact hfound t ht
    · split_ifs at ht with h
      · simp only [List.mem_singleton] at ht
        subst ht
        exact ⟨by simpa using h.1, by simpa using h.2, fun c hc => hrun c (by simpa using hc)⟩
      · simp at ht
  · have hascii : ∀ c ∈ ("AAPL and MSFT are up, GOOGL is down" : String).data,
        c.toNat ≤ 127 := by decide
    rw [extractSymbolsW_congr w isWordChar _ (fun c hc => hw c (hascii c hc))]
    decide
  · have hascii : ∀ c ∈ ("the market is open" : String).data, c.toNat ≤ 127 := by decide
    rw [extractSymbolsW_congr w isWordChar _ (fun c hc => hw c (hascii c hc))]
    decide

/-- Witness for C6, at the ASCII instantiation of the word-character
predicate: AAPL is extracted from the sample message and is a well-formed
1-to-5-uppercase token; GOOGL surrounded by word boundaries is extracted. -/
theorem extractSymbols_spec_witness :
    ("AAPL" ∈ extractSymbols "AAPL and MSFT are up, GOOGL is down" ∧ goodToken "AAPL") ∧
    String.mk "GOOGL".data ∈
      extractSymbols (String.mk (", ".data ++ "GOOGL".data ++ " is".data)) :=
  ⟨⟨by decide,
    (extractSymbols_spec isWordChar (fun _ _ => rfl)).1
      "AAPL and MSFT are up, GOOGL is down" "AAPL" (by decide)⟩,
   (extractSymbols_spec isWordChar (fun _ _ => rfl)).2.1 ", ".data "GOOGL".data " is".data
     (by decide) (by decide) (by decide) (by decide) (by decide)⟩

/-! ## Theorems: OHLC aggregation -/

instance : IsTotal Tick (fun a b => a.ts ≤ b.ts) := ⟨fun a b => Nat.le_total a.ts b.ts⟩

instance : IsTrans Tick (fun a b => a.ts ≤ b.ts) := ⟨fun _ _ _ h1 h2 => Nat.le_trans h1 h2⟩

/-- Inserting a tick commutes with filtering on a timestamp: skipped elements
have strictly smaller timestamps, so an inserted tick lands before every other
member of its own timestamp group. -/
theorem filter_orderedInsert (a : Tick) (l : List Tick) (t : Nat) :
    (List.orderedInsert (fun x y => x.ts ≤ y.ts) a l).filter (fun x => x.ts = t) =
      if a.ts = t then a :: l.filter (fun x => x.ts = t)
      else l.filter (fun x => x.ts = t) := by
  induction l with
  | nil =>
    simp only [List.orderedInsert]
    by_cases hat : a.ts = t <;> simp [List.filter_cons, hat]
  | cons b l ih =>
    simp only [List.orderedInsert]
    by_cases hab : a.ts ≤ b.ts
    · rw [if_pos hab]
      by_cases hat : a.ts = t
      · rw [if_pos hat]
        simp [List.filter_cons, hat]
      · rw [if_neg hat]
        simp [List.filter_cons, hat]
    · rw [if_neg hab]
      by_cases hat : a.ts = t
      · rw [if_pos hat]
        have hb : ¬ b.ts = t := fun hbt => hab (le_of_eq (hat.trans hbt.symm))
        simp [List.filter_cons, ih, hat, hb]
      · rw [if_neg hat]
        by_cases hb : b.ts = t <;> simp [List.filter_cons, ih, hat, hb]

/-- Stability of the modelled sort with respect to timestamp groups: within
one timestamp, the sorted list keeps the input order. -/
theorem filter_insertionSort (ticks : List Tick) (t : Nat) :
    (List.insertionSort (fun a b => a.ts ≤ b.ts) ticks).filter (fun x => x.ts = t) =
      ticks.filter (fun x => x.ts = t) := by
  induction ticks with
  | nil => rfl
  | cons a l ih =>
    simp only [List.insertionSort]
    rw [filter_orderedInsert]
    by_cases hat : a.ts = t <;> simp [List.filter_cons, hat, ih]

/-- The distinct timestamps of the sorted input, in first-bar order. -/
def tsKeys (ticks : List Tick) : List Nat :=
  ((List.insertionSort (fun a b => a.ts ≤ b.ts) ticks).map Tick.ts).dedup

/-- `aggregate` in closed form: one bar per key, each group taken directly
from the input order (sort stability). -/
theorem aggregate_eq (ticks : List Tick) :
    aggregate ticks =
      (tsKeys ticks).map (fun t => mkBar t (ticks.filter (fun x => x.ts = t))) := by
  show ((List.insertionSort (fun a b => a.ts ≤ b.ts) ticks).map Tick.ts).dedup.map
      (fun t => mkBar t
        ((List.insertionSort (fun a b => a.ts ≤ b.ts) ticks).filter (fun x => x.ts = t))) = _
  exact List.map_congr_left (fun t _ => by rw [filter_insertionSort])

theorem mem_tsKeys (ticks : List Tick) (t : Nat) :
    t ∈ tsKeys ticks ↔ ∃ x ∈ ticks, x.ts = t := by
  unfold tsKeys
  rw [List.mem_dedup, List.mem_map]
  constructor
  · rintro ⟨x, hx, rfl⟩
    exact ⟨x, (List.perm_insertionSort _ ticks).mem_iff.mp hx, rfl⟩
  · rintro ⟨x, hx, rfl⟩
    exact ⟨x, (List.perm_insertionSort _ ticks).mem_iff.mpr hx, rfl⟩

theorem tsKeys_pairwise (ticks : List Tick) : (tsKeys ticks).Pairwise (· < ·) := by
  have hs : List.Sorted (fun a b : Tick => a.ts ≤ b.ts)
      (List.insertionSort (fun a b => a.ts ≤ b.ts) ticks) :=
    List.sorted_insertionSort _ ticks
  have hmap : ((List.insertionSort (fun a b => a.ts ≤ b.ts) ticks).map Tick.ts).Pairwise
      (· ≤ ·) :=
    List.Pairwise.map Tick.ts (fun _ _ h => h) hs
  have hle : (tsKeys ticks).Pairwise (· ≤ ·) :=
    List.Pairwise.sublist (List.dedup_sublist _) hmap
  have hne : (tsKeys ticks).Pairwise (· ≠ ·) := List.nodup_dedup _
  exact (hle.and hne).imp (fun h => lt_of_le_of_ne h.1 h.2)

theorem filter_ne_nil_of_mem_tsKeys (ticks : List Tick) (t : Nat) (h : t ∈ tsKeys ticks) :
    ticks.filter (fun x => x.ts = t) ≠ [] := by
  obtain ⟨x, hx, rfl⟩ := (mem_tsKeys ticks t).mp h
  exact List.ne_nil_of_mem (List.mem_filter.mpr ⟨hx, by simp⟩)

theorem listMaxQ_mem : ∀ l : List ℚ, l ≠ [] → listMaxQ l ∈ l
  | [], h => absurd rfl h
  | [x], _ => by simp [listMaxQ]
  | x :: y :: xs, _ => by
    simp only [listMaxQ]
    rcases max_choice x (listMaxQ (y :: xs)) with h | h <;> rw [h]
    · exact List.mem_cons_self _ _
    · exact List.mem_cons_of_mem _ (listMaxQ_mem (y :: xs) (by simp))

theorem le_listMaxQ : ∀ l : List ℚ, ∀ x ∈ l, x ≤ listMaxQ l
  | [], x, hx => absurd hx (List.not_mem_nil x)
  | [y], x, hx => by simp only [List.mem_singleton] at hx; simp [listMaxQ, hx]
  | y :: z :: xs, x, hx => by
    simp only [listMaxQ]
    rcases List.mem_cons.mp hx with rfl | hx'
    · exact le_max_left _ _
    · exact le_trans (le_listMaxQ (z :: xs) x hx') (le_max_right _ _)

theorem listMinQ_mem : ∀ l : List ℚ, l ≠ [] → listMinQ l ∈ l
  | [], h => absurd rfl h
  | [x], _ => by simp [listMinQ]
  | x :: y :: xs, _ => by
    simp only [listMinQ]
    rcases min_choice x (listMinQ (y :: xs)) with h | h <;> rw [h]
    · exact List.mem_cons_self _ _
    · exact List.mem_cons_of_mem _ (listMinQ_mem (y :: xs) (by simp))

theorem listMinQ_le : ∀ l : List ℚ, ∀ x ∈ l, listMinQ l ≤ x
  | [], x, hx => absurd hx (List.not_mem_nil x)
  | [y], x, hx => by simp only [List.mem_singleton] at hx; simp [listMinQ, hx]
  | y :: z :: xs, x, hx => by
    simp only [listMinQ]
    rcases List.mem_cons.mp hx with rfl | hx'
    · exact min_le_left _ _
    · exact le_trans (min_le_right _ _) (listMinQ_le (z :: xs) x hx')

/-- The full description of one aggregated bar in terms of its timestamp group
taken in input order. -/
theorem aggregate_bar_core (ticks : List Tick) (bar : Bar) (h : bar ∈ aggregate ticks) :
    ∃ fi la, (ticks.filter (fun x => x.ts = bar.ts)).head? = some fi ∧
      (ticks.filter (fun x => x.ts = bar.ts)).getLast? = some la ∧
      bar.open_ = fi.price ∧
      bar.close = la.price ∧
      bar.high ∈ (ticks.filter (fun x => x.ts = bar.ts)).map Tick.price ∧
      (∀ p ∈ (ticks.filter (fun x => x.ts = bar.ts)).map Tick.price, p ≤ bar.high) ∧
      bar.low ∈ (ticks.filter (fun x => x.ts = bar.ts)).map Tick.price ∧
      (∀ p ∈ (ticks.filter (fun x => x.ts = bar.ts)).map Tick.price, bar.low ≤ p) ∧
      bar.volume = ((ticks.filter (fun x => x.ts = bar.ts)).map Tick.volume).sum := by
  rw [aggregate_eq] at h
  obtain ⟨t, ht, hbar⟩ := List.mem_map.mp h
  have hbts : bar.ts = t := by rw [← hbar]; exact rfl
  have hne : ticks.filter (fun x => x.ts = t) ≠ [] := filter_ne_nil_of_mem_tsKeys ticks t ht
  have hmapne : (ticks.filter (fun x => x.ts = t)).map Tick.price ≠ [] :=
    fun hm => hne (List.map_eq_nil_iff.mp hm)
  obtain ⟨fi, rest, hcons⟩ := List.exists_cons_of_ne_nil hne
  rw [hbts, ← hbar]
  refine ⟨fi, (ticks.filter (fun x => x.ts = t)).getLast hne, ?_, ?_, ?_, ?_, ?_, ?_, ?_, ?_, ?_⟩
  · rw [hcons]; rfl
  · exact List.getLast?_eq_getLast _ hne
  · show ((ticks.filter (fun x => x.ts = t)).head?.map Tick.price).getD 0 = fi.price
    rw [hcons]; rfl
  · show ((ticks.filter (fun x => x.ts = t)).getLast?.map Tick.price).getD 0 = _
    rw [List.getLast?_eq_getLast _ hne]; rfl
  · exact listMaxQ_mem _ hmapne
  · exact le_listMaxQ _
  · exact listMinQ_mem _ hmapne
  · exact listMinQ_le _
  · rfl

/-- C8: the bar sequence is strictly ascending in timestamp (hence free of
duplicate timestamps), its timestamps are exactly the input tick timestamps,
and when all input timestamps are distinct there is exactly one bar per tick. -/
theorem aggregate_ordered (ticks : List Tick) :
    ((aggregate ticks).map Bar.ts).Pairwise (· < ·) ∧
    (∀ t, (∃ b ∈ aggregate ticks, b.ts = t) ↔ ∃ x ∈ ticks, x.ts = t) ∧
    ((ticks.map Tick.ts).Nodup → (aggregate ticks).length = ticks.length) := by
  have hmap : (aggregate ticks).map Bar.ts = tsKeys ticks := by
    rw [aggregate_eq, List.map_map]
    have hcomp : (Bar.ts ∘ fun t => mkBar t (ticks.filter (fun x => x.ts = t))) =
        fun t => t := rfl
    rw [hcomp]
    exact List.map_id _
  refine ⟨by rw [hmap]; exact tsKeys_pairwise ticks, ?_, ?_⟩
  · intro t
    rw [← mem_tsKeys]
    constructor
    · rintro ⟨b, hb, rfl⟩
      rw [aggregate_eq] at hb
      obtain ⟨t', ht', rfl⟩ := List.mem_map.mp hb
      exact ht'
    · intro ht
      refine ⟨mkBar t (ticks.filter (fun x => x.ts = t)), ?_, rfl⟩
      rw [aggregate_eq]
      exact List.mem_map_of_mem _ ht
  · intro hnd
    have hperm := (List.perm_insertionSort (fun a b : Tick => a.ts ≤ b.ts) ticks).map Tick.ts
    have hnd' : ((List.insertionSort (fun a b : Tick => a.ts ≤ b.ts) ticks).map Tick.ts).Nodup :=
      hperm.nodup_iff.mpr hnd
    rw [aggregate_eq, List.length_map]
    unfold tsKeys
    rw [List.dedup_eq_self.mpr hnd', List.length_map]
    exact (List.perm_insertionSort _ ticks).length_eq

/-- Witness for C8: two ticks with distinct timestamps produce two bars. -/
theorem aggregate_ordered_witness :
    (([⟨1, 2, 3⟩, ⟨0, 5, 6⟩] : List Tick).map Tick.ts).Nodup ∧
    (aggregate [⟨1, 2, 3⟩, ⟨0, 5, 6⟩]).length = 2 :=
  ⟨by decide, (aggregate_ordered [⟨1, 2, 3⟩, ⟨0, 5, 6⟩]).2.2 (by decide)⟩

/-- C10: in every bar, open and close lie between low and high, because both
are prices of ticks of the bar's timestamp group, whose minimum is low and
maximum is high. -/
theorem aggregate_bar_bounds (ticks : List Tick) (bar : Bar) (h : bar ∈ aggregate ticks) :
    bar.low ≤ bar.open_ ∧ bar.open_ ≤ bar.high ∧
    bar.low ≤ bar.close ∧ bar.close ≤ bar.high := by
  obtain ⟨fi, la, hf, hl, ho, hc, _, hhb, _, hlb, _⟩ := aggregate_bar_core ticks bar h
  have hfi : fi.price ∈ (ticks.filter (fun x => x.ts = bar.ts)).map Tick.price :=
    List.mem_map_of_mem _ (List.mem_of_mem_head? hf)
  have hla : la.price ∈ (ticks.filter (fun x => x.ts = bar.ts)).map Tick.price := by
    have hne : ticks.filter (fun x => x.ts = bar.ts) ≠ [] := by
      intro hnil
      rw [hnil] at hf
      exact Option.noConfusion hf
    have := List.getLast?_eq_getLast _ hne
    rw [this] at hl
    obtain rfl : la = _ := (Option.some.injEq _ _).mp hl.symm
    exact List.mem_map_of_mem _ (List.getLast_mem hne)
  exact ⟨ho ▸ hlb _ hfi, ho ▸ hhb _ hfi, hc ▸ hlb _ hla, hc ▸ hhb _ hla⟩

/-- Witness for C10: a two-tick group with prices 7 then 2 gives a bar with
open=7, close=2 inside the low=2 .. high=7 range. -/
theorem aggregate_bar_bounds_witness :
    ((⟨3, 7, 7, 2, 2, 6⟩ : Bar) ∈ aggregate [⟨3, 7, 1⟩, ⟨3, 2, 5⟩]) ∧
    ((⟨3, 7, 7, 2, 2, 6⟩ : Bar).low ≤ (⟨3, 7, 7, 2, 2, 6⟩ : Bar).open_ ∧
     (⟨3, 7, 7, 2, 2, 6⟩ : Bar).open_ ≤ (⟨3, 7, 7, 2, 2, 6⟩ : Bar).high ∧
     (⟨3, 7, 7, 2, 2, 6⟩ : Bar).low ≤ (⟨3, 7, 7, 2, 2, 6⟩ : Bar).close ∧
     (⟨3, 7, 7, 2, 2, 6⟩ : Bar).close ≤ (⟨3, 7, 7, 2, 2, 6⟩ : Bar).high) :=
  ⟨by decide, aggregate_bar_bounds [⟨3, 7, 1⟩, ⟨3, 2, 5⟩] ⟨3, 7, 7, 2, 2, 6⟩ (by decide)⟩

/-! ## Theorems: tick extraction and the facade -/

/-- `get_market_data` on a message, unfolded: fail when any match list is
empty, else validate the positionally zipped triples and fail only when none
survives. -/
theorem get_market_data_eq (msg : String) :
    get_market_data (some msg) =
      (if findAll matchPrice msg.data = [] ∨ findAll matchSize msg.data = [] ∨
          findAll matchTs msg.data = [] then none
       else if ((findAll matchPrice msg.data).zip
            ((findAll matchSize msg.data).zip (findAll matchTs msg.data))).filterMap
            validateTriple = [] then none
       else
         some (aggregate (((findAll matchPrice msg.data).zip
            ((findAll matchSize msg.data).zip (findAll matchTs msg.data))).filterMap
            validateTriple))) := rfl

/-- A provider message with two Price and two Size matches but a single
Timestamp match. -/
def mismatchMsg : String :=
  "**Price:** $1.50 **Size:** 100 **Timestamp:** 2024-01-02 10:00:00 UTC **Price:** $2.50 **Size:** 200"

/-- C1 counterexample: on a message whose Price/Size/Timestamp match counts
differ (2, 2, 1), `get_market_data` does not fail — the truncating positional
zip pairs the first price and size with the lone timestamp and returns one
bar. -/
theorem count_mismatch_counterexample :
    (findAll matchPrice mismatchMsg.data).length = 2 ∧
    (findAll matchSize mismatchMsg.data).length = 2 ∧
    (findAll matchTs mismatchMsg.data).length = 1 ∧
    get_market_data (some mismatchMsg) =
      some [⟨20240102100000, mkRat 3 2, mkRat 3 2, mkRat 3 2, mkRat 3 2, 100⟩] := by
  have hp : findAll matchPrice mismatchMsg.data = ["1.50".data, "2.50".data] := by decide
  have hs : findAll matchSize mismatchMsg.data = ["100".data, "200".data] := by decide
  have ht : findAll matchTs mismatchMsg.data = ["2024-01-02 10:00:00 UTC".data] := by decide
  refine ⟨by rw [hp]; rfl, by rw [hs]; rfl, by rw [ht]; rfl, ?_⟩
  rw [get_market_data_eq, hp, hs, ht]
  decide

/-- C1 amended: extraction fails entirely exactly when one of the three match
lists is empty; when all three are non-empty, the matches are paired
positionally up to the shortest list (Python `zip` truncation), so mismatched
non-zero counts do use partial positional pairing. -/
theorem extraction_empty_policy (msg : String) :
    (findAll matchPrice msg.data = [] ∨ findAll matchSize msg.data = [] ∨
        findAll matchTs msg.data = [] → get_market_data (some msg) = none) ∧
    (findAll matchPrice msg.data ≠ [] → findAll matchSize msg.data ≠ [] →
      findAll matchTs msg.data ≠ [] →
      get_market_data (some msg) =
        (if ((findAll matchPrice msg.data).zip
              ((findAll matchSize msg.data).zip (findAll matchTs msg.data))).filterMap
              validateTriple = [] then none
         else
           some (aggregate (((findAll matchPrice msg.data).zip
              ((findAll matchSize msg.data).zip (findAll matchTs msg.data))).filterMap
              validateTriple)))) := by
  constructor
  · intro h
    rw [get_market_data_eq, if_pos h]
  · intro hp hs ht
    rw [get_market_data_eq, if_neg (by simp [hp, hs, ht])]

/-- Witness for C1 (amended): the mismatched-count message takes the
non-empty branch and returns the zip-truncated, validated data. -/
theorem extraction_empty_policy_witness :
    findAll matchPrice mismatchMsg.data ≠ [] ∧
    get_market_data (some mismatchMsg) =
      (if ((findAll matchPrice mismatchMsg.data).zip
            ((findAll matchSize mismatchMsg.data).zip
              (findAll matchTs mismatchMsg.data))).filterMap validateTriple = [] then none
       else
         some (aggregate (((findAll matchPrice mismatchMsg.data).zip
            ((findAll matchSize mismatchMsg.data).zip
              (findAll matchTs mismatchMsg.data))).filterMap validateTriple))) :=
  ⟨by decide, (extraction_empty_policy mismatchMsg).2 (by decide) (by decide) (by decide)⟩

/-- C7: with all three match lists non-empty, each positional triple is
validated independently — the call returns no data exactly when every triple
fails validation, and otherwise returns the aggregation of exactly the
surviving triples (failed triples are dropped, extraction continues). -/
theorem validation_policy (msg : String)
    (hp : findAll matchPrice msg.data ≠ []) (hs : findAll matchSize msg.data ≠ [])
    (ht : findAll matchTs msg.data ≠ []) :
    (get_market_data (some msg) = none ↔
      ∀ tr ∈ (findAll matchPrice msg.data).zip
          ((findAll matchSize msg.data).zip (findAll matchTs msg.data)),
        validateTriple tr = none) ∧
    (((findAll matchPrice msg.data).zip
          ((findAll matchSize msg.data).zip (findAll matchTs msg.data))).filterMap
          validateTriple ≠ [] →
      get_market_data (some msg) =
        some (aggregate (((findAll matchPrice msg.data).zip
          ((findAll matchSize msg.data).zip (findAll matchTs msg.data))).filterMap
          validateTriple))) := by
  have hcond : ¬(findAll matchPrice msg.data = [] ∨ findAll matchSize msg.data = [] ∨
      findAll matchTs msg.data = []) := by simp [hp, hs, ht]
  constructor
  · rw [get_market_data_eq, if_neg hcond, ← List.filterMap_eq_nil_iff]
    by_cases hv : ((findAll matchPrice msg.data).zip
        ((findAll matchSize msg.data).zip (findAll matchTs msg.data))).filterMap
        validateTriple = [] <;> simp [hv]
  · intro hv
    rw [get_market_data_eq, if_neg hcond, if_neg hv]

/-- A message whose first triple has an unparseable price (`$1.2.3`) and whose
second triple is fully valid. -/
def mixedMsg : String :=
  "**Price:** $1.2.3 **Size:** 10 **Timestamp:** 2024-01-02 10:00:00 UTC **Price:** $5 **Size:** 20 **Timestamp:** 2024-01-02 10:03:00 UTC"

/-- Witness for C7: the first triple of the mixed message fails validation and
is dropped, yet the call returns the data aggregated from the surviving
triples. -/
theorem validation_policy_witness :
    validateTriple ("1.2.3".data, "10".data, "2024-01-02 10:00:00 UTC".data) = none ∧
    get_market_data (some mixedMsg) =
      some (aggregate (((findAll matchPrice mixedMsg.data).zip
        ((findAll matchSize mixedMsg.data).zip (findAll matchTs mixedMsg.data))).filterMap
        validateTriple)) := by
  have hp : findAll matchPrice mixedMsg.data = ["1.2.3".data, "5".data] := by decide
  have hs : findAll matchSize mixedMsg.data = ["10".data, "20".data] := by decide
  have ht : findAll matchTs mixedMsg.data =
      ["2024-01-02 10:00:00 UTC".data, "2024-01-02 10:03:00 UTC".data] := by decide
  refine ⟨by decide, ?_⟩
  apply (validation_policy mixedMsg (by rw [hp]; decide) (by rw [hs]; decide)
      (by rw [ht]; decide)).2
  rw [hp, hs, ht]
  decide

end MarketData
